import Mathlib

/-!
Shallow embedding of the phonics word-study app (src/app.py) and proofs
about its core logic: the syllable-rule explainer, the dictionary
resolver with its cache, the per-token main loop with its history
ledger, and the CSV/TXT export of the ledger.

Python strings are modelled as Lean `String`; the string operations the
code uses (strip, lower, split, endswith, join) are given explicit
executable models over `String.data`.  Decoded JSON is modelled by an
inductive `Json` type whose `null` constructor also stands for Python
`None`.  Code that can raise (attribute access on a non-dict) lives in
`Except Unit`.  The network and the `pyphen` hyphenator are oracles
passed in as functions.
-/

/-- Python character for the apostrophe (kept by the cleaning regex). -/
def aposChar : Char := Char.ofNat 39

/-- Python character for the forward slash. -/
def slashChar : Char := Char.ofNat 47

/-- Python character for the opening square bracket. -/
def lbrackChar : Char := Char.ofNat 91

/-- Drop leading and trailing whitespace from a character list. -/
def stripList (l : List Char) : List Char :=
  ((l.dropWhile Char.isWhitespace).reverse.dropWhile Char.isWhitespace).reverse

/-- Python str.strip(): drop leading and trailing whitespace. -/
def pyStrip (s : String) : String :=
  String.mk (stripList s.data)

/-- Python str.lower() (the app only lowercases ASCII material). -/
def pyLower (s : String) : String :=
  String.mk (s.data.map Char.toLower)

/-- Does `l` start with `pat`? (executable model of str.startswith). -/
def startsList : List Char → List Char → Bool
  | [], _ => true
  | _ :: _, [] => false
  | a :: as, b :: bs => a == b && startsList as bs

/-- Does `l` end with `pat`? -/
def endsList (pat l : List Char) : Bool :=
  startsList pat.reverse l.reverse

/-- Python str.endswith. -/
def pyEndsWith (s suf : String) : Bool :=
  endsList suf.data s.data

/-- Python str.split("-"): always returns at least one piece. -/
def splitDash : List Char → List (List Char)
  | [] => [[]]
  | c :: rest =>
    match splitDash rest with
    | [] => [[]]
    | s :: ss => if c = '-' then [] :: s :: ss else (c :: s) :: ss

/-- str.split("-") at the `String` level. -/
def pySplitDash (s : String) : List String :=
  (splitDash s.data).map String.mk

/-- Python sep.join(xs). -/
def pyJoin (sep : String) : List String → String
  | [] => ""
  | [x] => x
  | x :: xs => x ++ sep ++ pyJoin sep xs

/-- Decoded JSON values as produced by json.loads; `null` is Python None. -/
inductive Json where
  | null : Json
  | bool : Bool → Json
  | num : Int → Json
  | str : String → Json
  | arr : List Json → Json
  | obj : List (String × Json) → Json

/-- Python truthiness of a decoded JSON value. -/
def Json.truthy : Json → Bool
  | .null => false
  | .bool b => b
  | .num n => n != 0
  | .str s => s != ""
  | .arr xs => !xs.isEmpty
  | .obj kvs => !kvs.isEmpty

/-- Python dict.get(k): null (None) when the key is absent; raises
(AttributeError) when the receiver is not a dict. -/
def Json.get : Json → String → Except Unit Json
  | .obj kvs, k => .ok ((kvs.lookup k).getD .null)
  | _, _ => .error ()

/-- The record returned by the dictionary resolver (app.py lines 96-102).
`example_` models the `example` field. -/
structure WordInfo where
  ipa : Option String
  pos : Option String
  definition : Option String
  example_ : Option String
  synonyms : List String
deriving DecidableEq

/-- app.py lines 96-102: the all-empty default record. -/
def base_result : WordInfo :=
  { ipa := none, pos := none, definition := none, example_ := none, synonyms := [] }

/-- The guard pattern `isinstance(x, str) and x.strip()` followed by use of
`x.strip()` (app.py lines 145-159). -/
def asCleanStr : Json → Option String
  | .str s => if pyStrip s == "" then none else some (pyStrip s)
  | _ => none

/-- app.py lines 128-132: the scan of the phonetics list for the first
entry whose "text" is a non-blank string; raises if a scanned element is
not a dict. -/
def findIpaText : List Json → Except Unit (Option String)
  | [] => .ok none
  | p :: rest =>
    match p.get "text" with
    | .error e => .error e
    | .ok (.str s) =>
      if pyStrip s == "" then findIpaText rest else .ok (some (pyStrip s))
    | .ok _ => findIpaText rest

/-- app.py lines 124-132: the dynamically typed value bound to `ipa`
after probing `phonetic` and, when that is falsy, the `phonetics` list. -/
def probeIpa (entry : Json) : Except Unit Json :=
  match entry.get "phonetic" with
  | .error e => .error e
  | .ok ipa =>
    if ipa.truthy then
      .ok ipa
    else
      match entry.get "phonetics" with
      | .error e => .error e
      | .ok ph =>
        match (if ph.truthy then ph else .arr []) with
        | .arr ps =>
          match findIpaText ps with
          | .error e => .error e
          | .ok (some s) => .ok (.str s)
          | .ok none => .ok ipa
        | _ => .ok ipa

/-- app.py lines 133-138: the final isinstance/strip guard and the
wrapping of the IPA in slashes when it carries no delimiter. -/
def wrapIpa : Json → Option String
  | .str s =>
    let t := pyStrip s
    if t == "" then none
    else if t.data.head? = some slashChar ∨ t.data.head? = some lbrackChar then some t
    else some ("/" ++ t ++ "/")
  | _ => none

/-- app.py lines 163-170: one pass over the synonyms list, keeping the
first occurrence of each non-blank stripped string. -/
def dedupSyns (acc : List String) : List Json → List String
  | [] => acc
  | .str s :: rest =>
    let c := pyStrip s
    if c ≠ "" ∧ c ∉ acc then dedupSyns (acc ++ [c]) rest else dedupSyns acc rest
  | _ :: rest => dedupSyns acc rest

/-- app.py lines 121-172: extraction of ipa / pos / definition / example /
synonyms from the first entry of a successfully decoded response body. -/
def parseEntry (entry : Json) : Except Unit WordInfo :=
  match probeIpa entry with
  | .error e => .error e
  | .ok ipaVal =>
    let ipa := wrapIpa ipaVal
    match entry.get "meanings" with
    | .error e => .error e
    | .ok ms =>
      match (if ms.truthy then ms else .arr []) with
      | .arr (m :: _) =>
        match m.get "partOfSpeech" with
        | .error e => .error e
        | .ok posVal =>
          let pos := asCleanStr posVal
          match m.get "definitions" with
          | .error e => .error e
          | .ok ds =>
            match (if ds.truthy then ds else .arr []) with
            | .arr (d0 :: _) =>
              match d0.get "definition" with
              | .error e => .error e
              | .ok defVal =>
                match d0.get "example" with
                | .error e => .error e
                | .ok exVal =>
                  match d0.get "synonyms" with
                  | .error e => .error e
                  | .ok synVal =>
                    let synonyms :=
                      match (if synVal.truthy then synVal else .arr []) with
                      | .arr xs => (dedupSyns [] xs).take 5
                      | _ => []
                    .ok { ipa := ipa, pos := pos, definition := asCleanStr defVal,
                          example_ := asCleanStr exVal, synonyms := synonyms }
            | _ => .ok { ipa := ipa, pos := pos, definition := none,
                         example_ := none, synonyms := [] }
      | _ => .ok { ipa := ipa, pos := none, definition := none,
                   example_ := none, synonyms := [] }

/-- Outcome of the HTTP fetch plus JSON decode (app.py lines 104-115):
the three failure constructors cover, in order, any raised exception
(network error, timeout, or other), a non-200 status, and a JSON decode
failure; `ok` carries the decoded body. -/
inductive FetchOutcome where
  | netError : FetchOutcome
  | badStatus : FetchOutcome
  | parseError : FetchOutcome
  | ok : Json → FetchOutcome

/-- app.py lines 86-172: fetch_word_info_from_api, given the outcome of
its network interaction. -/
def fetch_word_info_from_api : FetchOutcome → Except Unit WordInfo
  | .netError => .ok base_result
  | .badStatus => .ok base_result
  | .parseError => .ok base_result
  | .ok js =>
    match js with
    | .arr (entry :: _) => parseEntry entry
    | _ => .ok base_result

/-- The session dictionary cache plus a counter of network fetches
actually attempted. -/
structure DictState where
  cache : List (String × WordInfo)
  netCalls : Nat
deriving DecidableEq

/-- app.py lines 175-194: get_word_info, with the network as the oracle
`api` and explicit cache state. -/
def get_word_info (api : String → FetchOutcome) (word : String) (st : DictState) :
    Except Unit (WordInfo × DictState) :=
  let key := pyLower word
  match st.cache.lookup key with
  | some info => .ok (info, st)
  | none =>
    match fetch_word_info_from_api (api key) with
    | .error e => .error e
    | .ok info => .ok (info, { cache := st.cache ++ [(key, info)], netCalls := st.netCalls + 1 })

/-- app.py lines 48-58: the ordered suffix table. -/
def suffix_rules : List (String × String) :=
  [("tion", "后缀 -tion 通常构成一个独立音节"),
   ("sion", "后缀 -sion 通常构成一个独立音节"),
   ("ing", "后缀 -ing 通常构成一个独立音节"),
   ("er", "后缀 -er 常单独成音节（如 teacher, computer）"),
   ("or", "后缀 -or 常单独成音节（如 actor, doctor）"),
   ("ment", "后缀 -ment 常作为独立音节（如 movement）"),
   ("ness", "后缀 -ness 常作为独立音节（如 kindness）"),
   ("able", "后缀 -able 通常为独立音节（如 comfortable）"),
   ("ible", "后缀 -ible 通常为独立音节（如 possible）")]

/-- app.py lines 60-63: the for-break loop emits the first matching
table entry only. -/
def suffixRuleLines (base : String) : List String :=
  match suffix_rules.find? (fun p => pyEndsWith base p.1) with
  | some p => ["· " ++ p.2]
  | none => []

/-- Lowercase English vowels as used by the regexes on lines 66 and 70. -/
def vowels : List Char := ['a', 'e', 'i', 'o', 'u']

/-- The consonant character class of the regexes on lines 66 and 70. -/
def consonants : List Char :=
  ['b', 'c', 'd', 'f', 'g', 'h', 'j', 'k', 'l', 'm', 'n', 'p', 'q', 'r',
   's', 't', 'v', 'w', 'x', 'y', 'z']

/-- re.search of `[aeiou][consonant]{2}` (app.py line 66). -/
def hasVCC : List Char → Bool
  | a :: b :: c :: rest =>
    (vowels.contains a && consonants.contains b && consonants.contains c)
      || hasVCC (b :: c :: rest)
  | _ => false

/-- re.search of `[consonant][aeiou][consonant]` (app.py line 70). -/
def hasCVC : List Char → Bool
  | a :: b :: c :: rest =>
    (consonants.contains a && vowels.contains b && consonants.contains c)
      || hasCVC (b :: c :: rest)
  | _ => false

/-- app.py line 67. -/
def vccLine : String := "· VCC 结构中，元音后跟两个辅音时，一般在第一个辅音后断开（V-C-C）"

/-- app.py line 71. -/
def cvcLine : String := "· CVC 结构中，短元音后往往在辅音处断开，形成一个自然音节"

/-- app.py line 75. -/
def multiLine : String := "· 多音节单词通常从左到右按发音节奏自然分段"

/-- app.py line 79. -/
def fallbackLine : String := "· 根据常见发音节奏拆分音节（本词不属于常见规则范畴）"

/-- app.py lines 39-81: explain_syllable_rules. -/
def explain_syllable_rules (word : String) (syllables : List String) : List String :=
  let base := pyLower word
  let rules : List String := []
  let rules := rules ++ suffixRuleLines base
  let rules := if hasVCC base.data then rules ++ [vccLine] else rules
  let rules := if hasCVC base.data then rules ++ [cvcLine] else rules
  let rules := if syllables.length ≥ 3 then rules ++ [multiLine] else rules
  if rules.isEmpty then [fallbackLine] else rules

/-- One history record.  Field names translate the Chinese keys used in
app.py: timeStr=时间, count=次数, rawInput=原始输入, baseWord=标准单词,
sylSplit=音节分隔, sylCount=音节数, ipa=IPA. -/
structure HistEntry where
  timeStr : String
  count : Nat
  rawInput : String
  baseWord : String
  sylSplit : String
  sylCount : Nat
  ipa : String
deriving DecidableEq

/-- app.py lines 355-376: the history upsert run for one processed token.
The update branch overwrites 时间/次数/原始输入/音节分隔/音节数/IPA and leaves
标准单词 (baseWord) untouched, exactly as lines 360-366 do; the create
branch builds the full record of lines 368-376. -/
def updateHistory (h : List (String × HistEntry)) (base now w pretty : String)
    (cnt : Nat) (ipaH : String) : List (String × HistEntry) :=
  if (h.lookup base).isSome then
    h.map (fun kv => match kv with
      | (k0, e0) =>
        if k0 == base then
          (k0, ⟨now, e0.count + 1, w, e0.baseWord, pretty, cnt, ipaH⟩)
        else (k0, e0))
  else
    h ++ [(base, ⟨now, 1, w, base, pretty, cnt, ipaH⟩)]

/-- Session state touched by the main loop: the history ledger, the
dictionary cache, and the two running totals. -/
structure AppState where
  history : List (String × HistEntry)
  dict : DictState
  total_words : Nat
  total_syllables : Nat
deriving DecidableEq

/-- The state at session start: empty cache, empty ledger, zero totals. -/
def initialState : AppState :=
  { history := [], dict := { cache := [], netCalls := 0 },
    total_words := 0, total_syllables := 0 }

/-- app.py line 250: re.sub removing every character that is neither an
ASCII letter nor an apostrophe. -/
def cleanToken (w : String) : String :=
  String.mk (w.data.filter (fun c => c.isAlpha || c == aposChar))

/-- app.py lines 248-376: processing of one whitespace-separated token.
`dic` is the pyphen hyphenator oracle, `now` the timestamp string. -/
def processToken (api : String → FetchOutcome) (dic : String → String) (now : String)
    (st : AppState) (w : String) : Except Unit AppState :=
  let clean_word := cleanToken w
  if clean_word == "" then .ok st
  else
    let base := pyLower clean_word
    let hyphenated := dic base
    let syllables := pySplitDash hyphenated
    let cnt := syllables.length
    let pretty := pyJoin "·" syllables
    match get_word_info api base st.dict with
    | .error e => .error e
    | .ok (info, dict2) =>
      .ok { history := updateHistory st.history base now w pretty cnt (info.ipa.getD ""),
            dict := dict2,
            total_words := st.total_words + 1,
            total_syllables := st.total_syllables + cnt }

/-- The main loop over all tokens of one submitted input. -/
def processTokens (api : String → FetchOutcome) (dic : String → String) (now : String) :
    AppState → List String → Except Unit AppState
  | st, [] => .ok st
  | st, w :: ws =>
    match processToken api dic now st w with
    | .error e => .error e
    | .ok st2 => processTokens api dic now st2 ws

/-- The comparator used by `sorted(records, key=lambda x: x["时间"])`. -/
def timeLe (a b : HistEntry) : Bool := decide (a.timeStr ≤ b.timeStr)

/-- app.py lines 415 and 433: the ledger records sorted ascending by
timestamp for export. -/
def sortedRecords (h : List (String × HistEntry)) : List HistEntry :=
  (h.map Prod.snd).mergeSort timeLe

/-- app.py line 412: the CSV header fields. -/
def csvHeaders : List String :=
  ["时间", "次数", "原始输入", "标准单词", "音节分隔", "音节数", "IPA"]

/-- app.py lines 416-426: the cell strings of one exported row. -/
def rowOf (e : HistEntry) : List String :=
  [e.timeStr, toString e.count, e.rawInput, e.baseWord, e.sylSplit,
   toString e.sylCount, e.ipa]

/-- app.py lines 409-426: every row the CSV writer writes, in order. -/
def csvRows (h : List (String × HistEntry)) : List (List String) :=
  csvHeaders :: (sortedRecords h).map rowOf

/-- app.py line 431: the TXT header line. -/
def txtHeaderLine : String := "时间\t次数\t原始输入\t标准单词\t音节分隔\t音节数\tIPA"

/-- app.py lines 430-438: every line of the TXT export, in order. -/
def txtLines (h : List (String × HistEntry)) : List String :=
  txtHeaderLine :: (sortedRecords h).map (fun e => pyJoin "\t" (rowOf e))

deriving instance DecidableEq for Except

/-! ### Lemmas about the string model -/

theorem startsList_iff (p l : List Char) :
    startsList p l = true ↔ ∃ t, l = p ++ t := by
  induction p generalizing l with
  | nil => simp [startsList]
  | cons a as ih =>
    cases l with
    | nil => simp [startsList]
    | cons b bs =>
      simp only [startsList, Bool.and_eq_true, beq_iff_eq, ih, List.cons_append,
        List.cons.injEq]
      constructor
      · rintro ⟨rfl, t, rfl⟩
        exact ⟨t, rfl, rfl⟩
      · rintro ⟨t, h1, h2⟩
        exact ⟨h1.symm, t, h2⟩

theorem endsList_iff (p l : List Char) : endsList p l = true ↔ p <:+ l := by
  unfold endsList
  rw [startsList_iff]
  constructor
  · rintro ⟨t, h⟩
    refine ⟨t.reverse, ?_⟩
    have h2 := congrArg List.reverse h
    simpa [List.reverse_append] using h2.symm
  · rintro ⟨u, rfl⟩
    exact ⟨u.reverse, by simp [List.reverse_append]⟩

/-! ### The rule explainer -/

/-- C6: for every input word and syllable list, explain_syllable_rules
returns a non-empty list; when no suffix rule, spelling-pattern rule or
multi-syllable rule fired, the single generic fallback message is
emitted. -/
theorem fallback_guard_ne_nil (L : List String) :
    (if L.isEmpty then [fallbackLine] else L) ≠ [] := by
  cases L <;> simp

theorem rules_nonempty (word : String) (syllables : List String) :
    explain_syllable_rules word syllables ≠ [] := by
  simp only [explain_syllable_rules]
  exact fallback_guard_ne_nil _

/-- Is this emitted line one of the suffix-table explanations? -/
def isTableMsg (r : String) : Bool :=
  (suffix_rules.map (fun p => "· " ++ p.2)).contains r

theorem table_no_suffix_pair :
    ∀ p ∈ suffix_rules, ∀ q ∈ suffix_rules,
      p ≠ q → endsList p.1.data q.1.data = false := by
  decide

theorem suffix_rules_nodup : suffix_rules.Nodup := by decide

theorem isTableMsg_of_mem {p : String × String} (hp : p ∈ suffix_rules) :
    isTableMsg ("· " ++ p.2) = true := by
  simp only [isTableMsg, List.contains, List.elem_iff]
  exact List.mem_map_of_mem _ hp

theorem not_table_vcc : isTableMsg vccLine = false := by decide

theorem not_table_cvc : isTableMsg cvcLine = false := by decide

theorem not_table_multi : isTableMsg multiLine = false := by decide

theorem not_table_fallback : isTableMsg fallbackLine = false := by decide

theorem suffixHits_le_one (base : String) :
    (suffix_rules.filter (fun p => pyEndsWith base p.1)).length ≤ 1 := by
  by_contra hlen
  obtain ⟨p, q, t, hpq⟩ :
      ∃ p q t, suffix_rules.filter (fun p => pyEndsWith base p.1) = p :: q :: t := by
    cases hf : suffix_rules.filter (fun p => pyEndsWith base p.1) with
    | nil => rw [hf] at hlen; simp at hlen
    | cons a l =>
      cases l with
      | nil => rw [hf] at hlen; simp at hlen
      | cons b l2 => exact ⟨a, b, l2, rfl⟩
  have hnd : (suffix_rules.filter (fun p => pyEndsWith base p.1)).Nodup :=
    suffix_rules_nodup.filter _
  rw [hpq] at hnd
  have hne : p ≠ q := by
    rcases List.nodup_cons.mp hnd with ⟨hp1, _⟩
    intro h
    exact hp1 (h ▸ List.mem_cons_self q t)
  have hpmem := hpq ▸ List.mem_cons_self p (q :: t)
  have hqmem : q ∈ suffix_rules.filter (fun p => pyEndsWith base p.1) := by
    rw [hpq]; exact List.mem_cons_of_mem _ (List.mem_cons_self q t)
  rcases List.mem_filter.mp hpmem with ⟨hpS, hpE⟩
  rcases List.mem_filter.mp hqmem with ⟨hqS, hqE⟩
  have hpSuf : p.1.data <:+ base.data := (endsList_iff _ _).mp hpE
  have hqSuf : q.1.data <:+ base.data := (endsList_iff _ _).mp hqE
  rcases List.suffix_or_suffix_of_suffix hpSuf hqSuf with hh | hh
  · have := table_no_suffix_pair p hpS q hqS hne
    rw [(endsList_iff _ _).mpr hh] at this
    exact Bool.noConfusion this
  · have := table_no_suffix_pair q hqS p hpS hne.symm
    rw [(endsList_iff _ _).mpr hh] at this
    exact Bool.noConfusion this

theorem suffixRuleLines_eq_find (base : String) :
    suffixRuleLines base
      = ((suffix_rules.find? (fun p => pyEndsWith base p.1)).map
          (fun p => "· " ++ p.2)).toList := by
  unfold suffixRuleLines
  cases suffix_rules.find? (fun p => pyEndsWith base p.1) <;> simp

theorem filter_table_sfx (base : String) :
    (suffixRuleLines base).filter isTableMsg = suffixRuleLines base := by
  unfold suffixRuleLines
  cases hf : suffix_rules.find? (fun p => pyEndsWith base p.1) with
  | none => simp
  | some p =>
    have hp : p ∈ suffix_rules := List.mem_of_find?_eq_some hf
    simp [List.filter_cons, isTableMsg_of_mem hp]

/-- C3: suffix matching is first-match-wins in table order.  The
suffix-table lines appearing in the output of explain_syllable_rules are
exactly the (at most one) line produced by the first table entry whose
suffix matches, in the fixed table order; moreover no lowercase word can
match two distinct table suffixes at once, since no table suffix is a
suffix of another. -/
theorem suffix_first_match (word : String) (syllables : List String) :
    (explain_syllable_rules word syllables).filter isTableMsg
        = ((suffix_rules.find? (fun p => pyEndsWith (pyLower word) p.1)).map
            (fun p => "· " ++ p.2)).toList
      ∧ (suffix_rules.filter (fun p => pyEndsWith (pyLower word) p.1)).length ≤ 1 := by
  refine ⟨?_, suffixHits_le_one _⟩
  rw [← suffixRuleLines_eq_find]
  simp only [explain_syllable_rules, List.nil_append]
  split_ifs <;>
    simp_all [List.filter_append, List.filter_cons, filter_table_sfx,
      not_table_vcc, not_table_cvc, not_table_multi, not_table_fallback,
      List.isEmpty_iff, List.append_eq_nil]

/-! ### The dictionary resolver and its cache -/

theorem lookup_append {β : Type} (l1 l2 : List (String × β)) (k : String) :
    (l1 ++ l2).lookup k
      = match l1.lookup k with
        | some v => some v
        | none => l2.lookup k := by
  induction l1 with
  | nil => simp [List.lookup]
  | cons a l ih =>
    cases a with
    | mk k1 v1 =>
      simp only [List.cons_append, List.lookup]
      cases k == k1 <;> simp [ih]

/-- C1: on a cache miss where the fetch fails in any of the listed ways
(raised network error or timeout, non-200 status, JSON decode failure,
or a decoded body that is not a non-empty array), get_word_info returns
the all-empty record without propagating an exception, stores that same
record in the cache under the lowercase key, increments the fetch
counter once, and a second call for the same word returns the cached
record with the state—including the fetch counter—unchanged. -/
theorem dict_failure_cached (api : String → FetchOutcome) (word : String) (st : DictState)
    (hmiss : st.cache.lookup (pyLower word) = none)
    (hfail : api (pyLower word) = .netError ∨ api (pyLower word) = .badStatus
      ∨ api (pyLower word) = .parseError
      ∨ ∃ js, api (pyLower word) = .ok js ∧ ∀ e rest, js ≠ .arr (e :: rest)) :
    ∃ st2 : DictState,
      get_word_info api word st
          = .ok ({ ipa := none, pos := none, definition := none, example_ := none,
                   synonyms := [] }, st2)
        ∧ st2.cache.lookup (pyLower word)
            = some { ipa := none, pos := none, definition := none, example_ := none,
                     synonyms := [] }
        ∧ st2.netCalls = st.netCalls + 1
        ∧ get_word_info api word st2
            = .ok ({ ipa := none, pos := none, definition := none, example_ := none,
                     synonyms := [] }, st2) := by
  have hbase : fetch_word_info_from_api (api (pyLower word)) = .ok base_result := by
    rcases hfail with h | h | h | ⟨js, hjs, hne⟩
    · rw [h]; rfl
    · rw [h]; rfl
    · rw [h]; rfl
    · rw [hjs]
      cases js with
      | null => rfl
      | bool b => rfl
      | num n => rfl
      | str s => rfl
      | obj kvs => rfl
      | arr xs =>
        cases xs with
        | nil => rfl
        | cons e rest => exact absurd rfl (hne e rest)
  have hlk : ((st.cache ++ [(pyLower word, base_result)]).lookup (pyLower word))
      = some base_result := by
    rw [lookup_append, hmiss]
    simp [List.lookup]
  refine ⟨⟨st.cache ++ [(pyLower word, base_result)], st.netCalls + 1⟩, ?_, hlk, rfl, ?_⟩
  · simp only [get_word_info, hmiss, hbase]
    rfl
  · simp only [get_word_info, hlk]
    rfl

/-! ### The history ledger upsert -/

theorem lookup_map_update_eq {β : Type} (f : β → β) (base : String)
    (h : List (String × β)) :
    (h.map (fun kv => match kv with
        | (k0, e0) => if k0 == base then (k0, f e0) else (k0, e0))).lookup base
      = (h.lookup base).map f := by
  induction h with
  | nil => simp [List.lookup]
  | cons a l ih =>
    cases a with
    | mk k v =>
      simp only [List.map_cons]
      cases hkb : (k == base) with
      | true =>
        have hk : k = base := by simpa using hkb
        subst hk
        rw [if_pos (rfl : (true : Bool) = true)]
        simp [List.lookup]
      | false =>
        rw [if_neg (by decide : ¬((false : Bool) = true))]
        have hne : base ≠ k := by
          intro hh
          subst hh
          simp at hkb
        have h2 : (base == k) = false := beq_eq_false_iff_ne.mpr hne
        simp only [List.lookup, h2]
        exact ih

theorem lookup_map_update_ne {β : Type} (f : β → β) (base k2 : String)
    (h : List (String × β)) (hne : k2 ≠ base) :
    (h.map (fun kv => match kv with
        | (k0, e0) => if k0 == base then (k0, f e0) else (k0, e0))).lookup k2
      = h.lookup k2 := by
  induction h with
  | nil => simp
  | cons a l ih =>
    cases a with
    | mk k v =>
      simp only [List.map_cons]
      cases hkb : (k == base) with
      | true =>
        have hk : k = base := by simpa using hkb
        subst hk
        have h2 : (k2 == k) = false := beq_eq_false_iff_ne.mpr hne
        rw [if_pos (rfl : (true : Bool) = true)]
        simp only [List.lookup, h2]
        exact ih
      | false =>
        rw [if_neg (by decide : ¬((false : Bool) = true))]
        simp only [List.lookup]
        cases k2 == k with
        | false => exact ih
        | true => rfl

theorem map_update_keys {β : Type} (f : β → β) (base : String)
    (h : List (String × β)) :
    (h.map (fun kv => match kv with
        | (k0, e0) => if k0 == base then (k0, f e0) else (k0, e0))).map Prod.fst
      = h.map Prod.fst := by
  induction h with
  | nil => rfl
  | cons a l ih =>
    cases a with
    | mk k v =>
      simp only [List.map_cons]
      cases hkb : (k == base) with
      | true =>
        rw [if_pos (rfl : (true : Bool) = true)]
        exact congrArg (fun t => k :: t) ih
      | false =>
        rw [if_neg (by decide : ¬((false : Bool) = true))]
        exact congrArg (fun t => k :: t) ih

theorem updateHistory_absent (h : List (String × HistEntry))
    (base now w pretty : String) (cnt : Nat) (ipaH : String)
    (hmiss : h.lookup base = none) :
    updateHistory h base now w pretty cnt ipaH
      = h ++ [(base, ⟨now, 1, w, base, pretty, cnt, ipaH⟩)] := by
  unfold updateHistory
  rw [hmiss]
  rfl

theorem updateHistory_present (h : List (String × HistEntry))
    (base now w pretty : String) (cnt : Nat) (ipaH : String) (e : HistEntry)
    (hhit : h.lookup base = some e) :
    (updateHistory h base now w pretty cnt ipaH).lookup base
        = some ⟨now, e.count + 1, w, e.baseWord, pretty, cnt, ipaH⟩
      ∧ (updateHistory h base now w pretty cnt ipaH).length = h.length
      ∧ (∀ k, k ≠ base →
          (updateHistory h base now w pretty cnt ipaH).lookup k = h.lookup k)
      ∧ (updateHistory h base now w pretty cnt ipaH).map Prod.fst
          = h.map Prod.fst := by
  have hcond : (h.lookup base).isSome = true := by rw [hhit]; rfl
  unfold updateHistory
  rw [if_pos hcond]
  refine ⟨?_, ?_, ?_, ?_⟩
  · exact (lookup_map_update_eq
      (fun e0 : HistEntry => ⟨now, e0.count + 1, w, e0.baseWord, pretty, cnt, ipaH⟩)
      base h).trans (by rw [hhit]; rfl)
  · exact List.length_map h _
  · intro k hk
    exact lookup_map_update_ne
      (fun e0 : HistEntry => ⟨now, e0.count + 1, w, e0.baseWord, pretty, cnt, ipaH⟩)
      base k h hk
  · exact map_update_keys
      (fun e0 : HistEntry => ⟨now, e0.count + 1, w, e0.baseWord, pretty, cnt, ipaH⟩)
      base h

/-- Witness for the failure-caching theorem at a concrete failing fetch. -/
theorem dict_failure_cached_witness :
    ∃ st2 : DictState,
      get_word_info (fun _ => .netError) "cat" ⟨[], 0⟩
          = .ok ({ ipa := none, pos := none, definition := none, example_ := none,
                   synonyms := [] }, st2)
        ∧ st2.cache.lookup (pyLower "cat")
            = some { ipa := none, pos := none, definition := none, example_ := none,
                     synonyms := [] }
        ∧ st2.netCalls = (⟨[], 0⟩ : DictState).netCalls + 1
        ∧ get_word_info (fun _ => .netError) "cat" st2
            = .ok ({ ipa := none, pos := none, definition := none, example_ := none,
                     synonyms := [] }, st2) :=
  dict_failure_cached (fun _ => .netError) "cat" ⟨[], 0⟩ rfl (Or.inl rfl)

/-- C2: the history update is an upsert keyed by the canonical lowercase
word.  An absent key creates a count-1 record carrying the latest
values; a present key increments the count by one and overwrites the
timestamp, raw input, syllable breakdown, syllable count and IPA with
the latest values; and processing "Computer" then "COMPUTER" yields
exactly one ledger entry, keyed "computer", with count 2. -/
theorem history_upsert :
    (∀ (h : List (String × HistEntry)) (base now w pretty : String) (cnt : Nat)
        (ipaH : String),
      h.lookup base = none →
        updateHistory h base now w pretty cnt ipaH
          = h ++ [(base, ⟨now, 1, w, base, pretty, cnt, ipaH⟩)])
    ∧ (∀ (h : List (String × HistEntry)) (base now w pretty : String) (cnt : Nat)
        (ipaH : String) (e : HistEntry),
      h.lookup base = some e →
        (updateHistory h base now w pretty cnt ipaH).lookup base
            = some ⟨now, e.count + 1, w, e.baseWord, pretty, cnt, ipaH⟩
          ∧ (updateHistory h base now w pretty cnt ipaH).length = h.length
          ∧ ∀ k, k ≠ base →
              (updateHistory h base now w pretty cnt ipaH).lookup k = h.lookup k)
    ∧ (∀ (api : String → FetchOutcome) (dic : String → String) (now : String)
        (st2 : AppState),
      processTokens api dic now initialState ["Computer", "COMPUTER"] = .ok st2 →
        ∃ en : HistEntry, st2.history = [("computer", en)] ∧ en.count = 2) := by
  refine ⟨updateHistory_absent, ?_, ?_⟩
  · intro h base now w pretty cnt ipaH e hhit
    obtain ⟨h1, h2, h3, _⟩ := updateHistory_present h base now w pretty cnt ipaH e hhit
    exact ⟨h1, h2, h3⟩
  · intro api dic now st2 hrun
    have hbig : processTokens api dic now initialState ["Computer", "COMPUTER"]
        = match fetch_word_info_from_api (api "computer") with
          | .error e0 => .error e0
          | .ok info => .ok
              { history := [("computer",
                  ⟨now, 2, "COMPUTER", "computer",
                    pyJoin "·" (pySplitDash (dic "computer")),
                    (pySplitDash (dic "computer")).length, info.ipa.getD ""⟩)]
                dict := ⟨[("computer", info)], 1⟩
                total_words := 2
                total_syllables :=
                  0 + (pySplitDash (dic "computer")).length
                    + (pySplitDash (dic "computer")).length } := by
      have hc1 : (cleanToken "Computer" == "") = false := by decide
      have hc2 : pyLower (cleanToken "Computer") = "computer" := by decide
      have hc3 : (cleanToken "COMPUTER" == "") = false := by decide
      have hc4 : pyLower (cleanToken "COMPUTER") = "computer" := by decide
      have hc5 : pyLower "computer" = "computer" := by decide
      simp only [processTokens, processToken, hc1, hc3, Bool.false_eq_true, if_false,
        hc2, hc4, get_word_info, hc5, List.lookup, initialState, updateHistory]
      cases hf : fetch_word_info_from_api (api "computer") with
      | error e0 => rfl
      | ok info => simp [List.lookup]
    rw [hbig] at hrun
    cases hf : fetch_word_info_from_api (api "computer") with
    | error e0 =>
      rw [hf] at hrun
      exact absurd hrun (by simp)
    | ok info =>
      rw [hf] at hrun
      simp only [Except.ok.injEq] at hrun
      subst hrun
      exact ⟨⟨now, 2, "COMPUTER", "computer",
        pyJoin "·" (pySplitDash (dic "computer")),
        (pySplitDash (dic "computer")).length, info.ipa.getD ""⟩, rfl, rfl⟩

/-- Final ledger entry of the run "Computer" then "COMPUTER" with a
failing network and identity hyphenator. -/
def c2Entry : HistEntry := ⟨"t", 2, "COMPUTER", "computer", "computer", 1, ""⟩

/-- Final session state of that concrete run. -/
def c2RunState : AppState :=
  ⟨[("computer", c2Entry)], ⟨[("computer", base_result)], 1⟩, 2, 2⟩

/-- Witness for the upsert theorem at concrete inputs. -/
theorem history_upsert_witness :
    (updateHistory [] "computer" "t" "Computer" "com·put·er" 3 ""
        = [("computer", ⟨"t", 1, "Computer", "computer", "com·put·er", 3, ""⟩)])
    ∧ ((updateHistory [("computer", ⟨"t", 1, "Computer", "computer", "com·put·er", 3, ""⟩)]
          "computer" "u" "COMPUTER" "com·put·er" 3 "/x/").lookup "computer"
        = some ⟨"u", 2, "COMPUTER", "computer", "com·put·er", 3, "/x/"⟩)
    ∧ (∃ en : HistEntry,
        c2RunState.history = [("computer", en)] ∧ en.count = 2) := by
  refine ⟨?_, ?_, ?_⟩
  · exact history_upsert.1 [] "computer" "t" "Computer" "com·put·er" 3 "" rfl
  · exact (history_upsert.2.1
      [("computer", ⟨"t", 1, "Computer", "computer", "com·put·er", 3, ""⟩)]
      "computer" "u" "COMPUTER" "com·put·er" 3 "/x/"
      ⟨"t", 1, "Computer", "computer", "com·put·er", 3, ""⟩ rfl).1
  · exact history_upsert.2.2 (fun _ => .netError) (fun s => s) "t" c2RunState (by decide)

/-! ### Invariants of the main loop -/

theorem updateHistory_shape (h : List (String × HistEntry))
    (base now w pretty : String) (cnt : Nat) (ipaH : String) :
    ∀ kv ∈ updateHistory h base now w pretty cnt ipaH,
      kv ∈ h
      ∨ (∃ e0 : HistEntry, (kv.1, e0) ∈ h
          ∧ kv = (kv.1, ⟨now, e0.count + 1, w, e0.baseWord, pretty, cnt, ipaH⟩))
      ∨ kv = (base, ⟨now, 1, w, base, pretty, cnt, ipaH⟩) := by
  unfold updateHistory
  split
  · intro kv hkv
    obtain ⟨kv0, hkv0, heq⟩ := List.mem_map.mp hkv
    cases kv0 with
    | mk k0 e0 =>
      have heq2 : (if (k0 == base) = true then
            ((k0, ⟨now, e0.count + 1, w, e0.baseWord, pretty, cnt, ipaH⟩) : String × HistEntry)
          else (k0, e0)) = kv := heq
      by_cases hk : (k0 == base) = true
      · rw [if_pos hk] at heq2
        right; left
        refine ⟨e0, ?_, ?_⟩
        · rw [← heq2]
          exact hkv0
        · rw [← heq2]
      · rw [if_neg hk] at heq2
        left
        rw [← heq2]
        exact hkv0
  · intro kv hkv
    rcases List.mem_append.mp hkv with h1 | h1
    · exact Or.inl h1
    · right; right
      simpa using h1

theorem updateHistory_keys (h : List (String × HistEntry))
    (base now w pretty : String) (cnt : Nat) (ipaH : String) :
    (updateHistory h base now w pretty cnt ipaH).map Prod.fst = h.map Prod.fst
    ∨ (updateHistory h base now w pretty cnt ipaH).map Prod.fst
        = h.map Prod.fst ++ [base] := by
  unfold updateHistory
  split
  · exact Or.inl (map_update_keys
      (fun e0 : HistEntry => ⟨now, e0.count + 1, w, e0.baseWord, pretty, cnt, ipaH⟩)
      base h)
  · right
    simp

theorem splitDash_ne_nil (l : List Char) : splitDash l ≠ [] := by
  induction l with
  | nil => simp [splitDash]
  | cons c rest ih =>
    cases hs : splitDash rest with
    | nil => exact absurd hs ih
    | cons s ss =>
      simp only [splitDash, hs]
      split <;> simp

theorem pySplitDash_length_pos (s : String) : 1 ≤ (pySplitDash s).length := by
  unfold pySplitDash
  rw [List.length_map]
  exact List.length_pos.mpr (splitDash_ne_nil s.data)

/-- What one processToken step does to the session state: either the
token cleans to empty and nothing changes, or the word counter rises by
one, the syllable counter rises by the token's syllable count (which is
at least one), and the history receives an upsert keyed by the
lowercase cleaned word. -/
theorem processToken_inv (api : String → FetchOutcome) (dic : String → String)
    (now : String) (st : AppState) (w : String) (st1 : AppState)
    (hok : processToken api dic now st w = .ok st1) :
    (st1 = st)
    ∨ ∃ pretty ipaH cnt, 1 ≤ cnt
        ∧ st1.history
            = updateHistory st.history (pyLower (cleanToken w)) now w pretty cnt ipaH
        ∧ st1.total_words = st.total_words + 1
        ∧ st1.total_syllables = st.total_syllables + cnt := by
  rw [show processToken api dic now st w
      = (if (cleanToken w == "") then .ok st
        else
          match get_word_info api (pyLower (cleanToken w)) st.dict with
          | .error e => .error e
          | .ok (info, dict2) =>
            .ok { history :=
                    updateHistory st.history (pyLower (cleanToken w)) now w
                      (pyJoin "·" (pySplitDash (dic (pyLower (cleanToken w)))))
                      ((pySplitDash (dic (pyLower (cleanToken w)))).length)
                      (info.ipa.getD "")
                  dict := dict2
                  total_words := st.total_words + 1
                  total_syllables :=
                    st.total_syllables
                      + (pySplitDash (dic (pyLower (cleanToken w)))).length })
      from rfl] at hok
  by_cases hw : (cleanToken w == "") = true
  · rw [if_pos hw] at hok
    left
    exact ((Except.ok.injEq _ _).mp hok).symm
  · rw [if_neg hw] at hok
    cases hg : get_word_info api (pyLower (cleanToken w)) st.dict with
    | error e0 =>
      rw [hg] at hok
      exact absurd hok (by simp)
    | ok p =>
      cases p with
      | mk info dict2 =>
        rw [hg] at hok
        right
        refine ⟨pyJoin "·" (pySplitDash (dic (pyLower (cleanToken w)))), info.ipa.getD "",
          (pySplitDash (dic (pyLower (cleanToken w)))).length,
          pySplitDash_length_pos _, ?_, ?_, ?_⟩
        · rw [← (Except.ok.injEq _ _).mp hok]
        · rw [← (Except.ok.injEq _ _).mp hok]
        · rw [← (Except.ok.injEq _ _).mp hok]

/-- C9: invariant of the history ledger, preserved by both upsert
branches: every record's canonical-word field (标准单词) equals the key
it is stored under; the update branch never rewrites that field, and
every key the main loop ever uses is the lowercase cleaned token. -/
theorem history_key_invariant :
    ∀ (api : String → FetchOutcome) (dic : String → String) (now : String)
      (ws : List String) (st st2 : AppState),
      (∀ kv ∈ st.history, kv.2.baseWord = kv.1) →
      processTokens api dic now st ws = .ok st2 →
      (∀ kv ∈ st2.history, kv.2.baseWord = kv.1)
      ∧ ∀ k ∈ st2.history.map Prod.fst,
          k ∈ st.history.map Prod.fst ∨ ∃ w ∈ ws, k = pyLower (cleanToken w) := by
  intro api dic now ws
  induction ws with
  | nil =>
    intro st st2 hinv hrun
    simp only [processTokens] at hrun
    injection hrun with h
    subst h
    exact ⟨hinv, fun k hk => Or.inl hk⟩
  | cons w ws ih =>
    intro st st2 hinv hrun
    rw [show processTokens api dic now st (w :: ws)
        = (match processToken api dic now st w with
          | .error e => .error e
          | .ok st1 => processTokens api dic now st1 ws) from rfl] at hrun
    cases hpt : processToken api dic now st w with
    | error e =>
      rw [hpt] at hrun
      exact absurd hrun (by simp)
    | ok st1 =>
      rw [hpt] at hrun
      have hstep := processToken_inv api dic now st w st1 hpt
      have hinv1 : ∀ kv ∈ st1.history, kv.2.baseWord = kv.1 := by
        rcases hstep with rfl | ⟨pretty, ipaH, cnt, hcnt, hh, htw, hts⟩
        · exact hinv
        · rw [hh]
          intro kv hkv
          rcases updateHistory_shape _ _ _ _ _ _ _ kv hkv with hm | ⟨e0, hm, heq⟩ | heq
          · exact hinv kv hm
          · have h2 := congrArg Prod.snd heq
            rw [h2]
            exact hinv (kv.1, e0) hm
          · have h1 := congrArg Prod.fst heq
            have h2 := congrArg Prod.snd heq
            rw [h1, h2]
      have hkeys1 : ∀ k ∈ st1.history.map Prod.fst,
          k ∈ st.history.map Prod.fst ∨ k = pyLower (cleanToken w) := by
        rcases hstep with rfl | ⟨pretty, ipaH, cnt, hcnt, hh, htw, hts⟩
        · exact fun k hk => Or.inl hk
        · rw [hh]
          intro k hk
          rcases updateHistory_keys st.history (pyLower (cleanToken w)) now w pretty
            cnt ipaH with hkk | hkk
          · rw [hkk] at hk
            exact Or.inl hk
          · rw [hkk] at hk
            rcases List.mem_append.mp hk with h1 | h1
            · exact Or.inl h1
            · right
              simpa using h1
      obtain ⟨ha, hb⟩ := ih st1 st2 hinv1 hrun
      refine ⟨ha, fun k hk => ?_⟩
      rcases hb k hk with h1 | ⟨w2, hw2, hkw⟩
      · rcases hkeys1 k h1 with h2 | h2
        · exact Or.inl h2
        · exact Or.inr ⟨w, List.mem_cons_self w ws, h2⟩
      · exact Or.inr ⟨w2, List.mem_cons_of_mem _ hw2, hkw⟩

/-- C10: splitting any hyphenated string on "-" yields at least one
piece, so every processed word contributes a syllable count of at least
one; hence every ledger record has 音节数 ≥ 1 and the running total of
syllables stays at least the running total of words. -/
theorem syllable_count_lower_bound :
    (∀ s : String, 1 ≤ (pySplitDash s).length)
    ∧ ∀ (api : String → FetchOutcome) (dic : String → String) (now : String)
        (ws : List String) (st st2 : AppState),
        (∀ kv ∈ st.history, 1 ≤ kv.2.sylCount) →
        st.total_words ≤ st.total_syllables →
        processTokens api dic now st ws = .ok st2 →
        (∀ kv ∈ st2.history, 1 ≤ kv.2.sylCount)
        ∧ st2.total_words ≤ st2.total_syllables := by
  refine ⟨pySplitDash_length_pos, ?_⟩
  intro api dic now ws
  induction ws with
  | nil =>
    intro st st2 h1 h2 hrun
    simp only [processTokens] at hrun
    injection hrun with h
    subst h
    exact ⟨h1, h2⟩
  | cons w ws ih =>
    intro st st2 h1 h2 hrun
    rw [show processTokens api dic now st (w :: ws)
        = (match processToken api dic now st w with
          | .error e => .error e
          | .ok st1 => processTokens api dic now st1 ws) from rfl] at hrun
    cases hpt : processToken api dic now st w with
    | error e =>
      rw [hpt] at hrun
      exact absurd hrun (by simp)
    | ok st1 =>
      rw [hpt] at hrun
      rcases processToken_inv api dic now st w st1 hpt with
        rfl | ⟨pretty, ipaH, cnt, hcnt, hh, htw, hts⟩
      · exact ih _ st2 h1 h2 hrun
      · refine ih st1 st2 ?_ ?_ hrun
        · rw [hh]
          intro kv hkv
          rcases updateHistory_shape _ _ _ _ _ _ _ kv hkv with hm | ⟨e0, hm, heq⟩ | heq
          · exact h1 kv hm
          · have h3 := congrArg Prod.snd heq
            rw [h3]
            exact hcnt
          · have h3 := congrArg Prod.snd heq
            rw [h3]
            exact hcnt
        · rw [htw, hts]
          omega

/-- Final session state after processing the single token "Computer"
with a failing network and identity hyphenator. -/
def c9RunState : AppState :=
  ⟨[("computer", ⟨"t", 1, "Computer", "computer", "computer", 1, ""⟩)],
   ⟨[("computer", base_result)], 1⟩, 1, 1⟩

/-- Witness for the key invariant at a concrete run. -/
theorem history_key_invariant_witness :
    (∀ kv ∈ c9RunState.history, kv.2.baseWord = kv.1)
    ∧ ∀ k ∈ c9RunState.history.map Prod.fst,
        k ∈ initialState.history.map Prod.fst
        ∨ ∃ w ∈ ["Computer"], k = pyLower (cleanToken w) :=
  history_key_invariant (fun _ => .netError) (fun s => s) "t" ["Computer"]
    initialState c9RunState
    (by intro kv hkv; simp [initialState] at hkv) (by decide)

/-- Witness for the syllable-count bound at a concrete run. -/
theorem syllable_count_lower_bound_witness :
    (1 ≤ (pySplitDash "com-put-er").length)
    ∧ (∀ kv ∈ c9RunState.history, 1 ≤ kv.2.sylCount)
    ∧ c9RunState.total_words ≤ c9RunState.total_syllables := by
  have h := syllable_count_lower_bound.2 (fun _ => .netError) (fun s => s) "t"
    ["Computer"] initialState c9RunState
    (by intro kv hkv; simp [initialState] at hkv) (by decide) (by decide)
  exact ⟨syllable_count_lower_bound.1 "com-put-er", h.1, h.2⟩

/-! ### Token cleaning and skipping -/

/-- Counterexample to the claim that every token of only non-letter
characters is skipped: the cleaning regex keeps apostrophes, so the
token consisting of a single apostrophe (no letters at all) is
processed — it raises the word count to 1, contributes a syllable, and
creates a history entry keyed by the apostrophe itself. -/
theorem nonletter_token_processed :
    ((String.mk [aposChar]).data.any Char.isAlpha = false)
    ∧ processTokens (fun _ => .netError) (fun s => s) "t" initialState
        [String.mk [aposChar]]
      = .ok ⟨[(String.mk [aposChar],
              ⟨"t", 1, String.mk [aposChar], String.mk [aposChar],
                String.mk [aposChar], 1, ""⟩)],
             ⟨[(String.mk [aposChar], base_result)], 1⟩, 1, 1⟩ :=
  ⟨by decide, by decide⟩

/-- C7 amended: any token whose characters are all neither ASCII letters
nor apostrophes cleans to the empty string and is silently skipped —
processToken leaves the whole session state (word total, syllable
total, history, cache) unchanged and emits nothing. -/
theorem token_skip (api : String → FetchOutcome) (dic : String → String)
    (now : String) (st : AppState) (w : String)
    (hw : ∀ c ∈ w.data, ¬(c.isAlpha = true ∨ c = aposChar)) :
    processToken api dic now st w = .ok st := by
  have hclean : cleanToken w = "" := by
    unfold cleanToken
    have hfil : w.data.filter (fun c => c.isAlpha || c == aposChar) = [] := by
      rw [List.filter_eq_nil_iff]
      intro c hc
      simp only [Bool.or_eq_true, beq_iff_eq]
      exact hw c hc
    rw [hfil]
  simp [processToken, hclean]

/-- Witness for the amended skip theorem at a pure-punctuation token. -/
theorem token_skip_witness :
    processToken (fun _ => .netError) (fun s => s) "t" initialState "!!!"
      = .ok initialState :=
  token_skip (fun _ => .netError) (fun s => s) "t" initialState "!!!" (by decide)

/-! ### The CSV / TXT export -/

theorem timeLe_trans : ∀ a b c : HistEntry,
    timeLe a b = true → timeLe b c = true → timeLe a c = true := by
  intro a b c hab hbc
  simp only [timeLe, decide_eq_true_eq] at hab hbc ⊢
  exact le_trans hab hbc

theorem timeLe_total : ∀ a b : HistEntry, (timeLe a b || timeLe b a) = true := by
  intro a b
  simp only [timeLe, Bool.or_eq_true, decide_eq_true_eq]
  exact le_total _ _

/-- C8: the CSV export's header row is exactly
时间,次数,原始输入,标准单词,音节分隔,音节数,IPA; both the CSV and the TXT
export carry exactly one data row per ledger entry (their data rows are
the ledger's records, permuted, so one per distinct canonical word);
and the records both serialize are sorted ascending by the last-seen
timestamp. -/
theorem export_shape_sorted (h : List (String × HistEntry)) :
    (csvRows h).head?
        = some ["时间", "次数", "原始输入", "标准单词", "音节分隔", "音节数", "IPA"]
    ∧ (csvRows h).tail = (sortedRecords h).map rowOf
    ∧ (csvRows h).tail.Perm (h.map (fun kv => rowOf kv.2))
    ∧ (csvRows h).tail.length = h.length
    ∧ (txtLines h).head? = some txtHeaderLine
    ∧ (txtLines h).tail = (sortedRecords h).map (fun e => pyJoin "\t" (rowOf e))
    ∧ (txtLines h).tail.Perm (h.map (fun kv => pyJoin "\t" (rowOf kv.2)))
    ∧ (txtLines h).tail.length = h.length
    ∧ (sortedRecords h).Pairwise (fun a b => a.timeStr ≤ b.timeStr)
    ∧ ((csvRows h).tail).Pairwise
        (fun r1 r2 => r1.head?.getD "" ≤ r2.head?.getD "") := by
  have hperm : (sortedRecords h).Perm (h.map Prod.snd) := List.mergeSort_perm _ _
  have hsorted2 : (sortedRecords h).Pairwise (fun a b => a.timeStr ≤ b.timeStr) :=
    (List.sorted_mergeSort timeLe_trans timeLe_total (h.map Prod.snd)).imp
      (fun hab => by simpa [timeLe] using hab)
  refine ⟨rfl, rfl, ?_, ?_, rfl, rfl, ?_, ?_, hsorted2, ?_⟩
  · have := hperm.map rowOf
    simpa [List.map_map, Function.comp] using this
  · simp [csvRows, sortedRecords, List.length_map, hperm.length_eq]
  · have := hperm.map (fun e => pyJoin "\t" (rowOf e))
    simpa [List.map_map, Function.comp] using this
  · simp [txtLines, sortedRecords, List.length_map, hperm.length_eq]
  · rw [show (csvRows h).tail = (sortedRecords h).map rowOf from rfl,
      List.pairwise_map]
    exact hsorted2.imp (fun hab => by simpa [rowOf] using hab)

/-! ### Synonym extraction (dedup, order, truncation) -/

/-- The string payload of a JSON value, when it is a string. -/
def jsonStrVal : Json → Option String
  | .str s => some s
  | _ => none

/-- The usable synonym strings of a raw synonyms array, in order: the
string elements, stripped, with blanks dropped. -/
def pyStrClean (xs : List Json) : List String :=
  ((xs.filterMap jsonStrVal).map pyStrip).filter (fun s => s != "")

/-- One step of first-occurrence deduplication. -/
def dedupStep (acc : List String) (x : String) : List String :=
  if x ∈ acc then acc else acc ++ [x]

/-- Modelled from the spec: "a deduplicated, order-preserving list of
synonyms" — keep the first occurrence of each string, preserving
order. -/
def dedupKeepFirst (l : List String) : List String :=
  l.foldl dedupStep []

theorem dedupSyns_eq (xs : List Json) :
    ∀ acc : List String, dedupSyns acc xs = (pyStrClean xs).foldl dedupStep acc := by
  induction xs with
  | nil => intro acc; simp [dedupSyns, pyStrClean]
  | cons x rest ih =>
    intro acc
    cases x with
    | str s =>
      by_cases hs : pyStrip s = ""
      · have hfil : pyStrClean (Json.str s :: rest) = pyStrClean rest := by
          simp [pyStrClean, jsonStrVal, List.filterMap_cons, hs]
        rw [hfil, ← ih acc]
        simp [dedupSyns, hs]
      · have hfil : pyStrClean (Json.str s :: rest) = pyStrip s :: pyStrClean rest := by
          simp [pyStrClean, jsonStrVal, List.filterMap_cons, hs]
        rw [hfil, List.foldl_cons]
        by_cases hmem : pyStrip s ∈ acc
        · rw [show dedupStep acc (pyStrip s) = acc from if_pos hmem, ← ih acc]
          simp [dedupSyns, hs, hmem]
        · rw [show dedupStep acc (pyStrip s) = acc ++ [pyStrip s] from if_neg hmem,
            ← ih (acc ++ [pyStrip s])]
          simp [dedupSyns, hs, hmem]
    | null => simp [dedupSyns, pyStrClean, jsonStrVal, List.filterMap_cons, ih]
    | bool b => simp [dedupSyns, pyStrClean, jsonStrVal, List.filterMap_cons, ih]
    | num n => simp [dedupSyns, pyStrClean, jsonStrVal, List.filterMap_cons, ih]
    | arr l => simp [dedupSyns, pyStrClean, jsonStrVal, List.filterMap_cons, ih]
    | obj l => simp [dedupSyns, pyStrClean, jsonStrVal, List.filterMap_cons, ih]

theorem dedup_foldl_nodup (l : List String) :
    ∀ acc : List String, acc.Nodup → (l.foldl dedupStep acc).Nodup := by
  induction l with
  | nil => intro acc h; simpa using h
  | cons x l ih =>
    intro acc hacc
    rw [List.foldl_cons]
    apply ih
    unfold dedupStep
    by_cases hx : x ∈ acc
    · rwa [if_pos hx]
    · rw [if_neg hx]
      rw [List.nodup_append]
      exact ⟨hacc, List.nodup_singleton x,
        fun a ha hax => hx ((List.mem_singleton.mp hax) ▸ ha)⟩

theorem dedup_foldl_split (l : List String) :
    ∀ acc : List String, ∃ t, l.foldl dedupStep acc = acc ++ t ∧ t.Sublist l := by
  induction l with
  | nil => intro acc; exact ⟨[], by simp, List.nil_sublist []⟩
  | cons x l ih =>
    intro acc
    rw [List.foldl_cons]
    by_cases hx : x ∈ acc
    · rw [show dedupStep acc x = acc from if_pos hx]
      obtain ⟨t, h1, h2⟩ := ih acc
      exact ⟨t, h1, h2.cons x⟩
    · rw [show dedupStep acc x = acc ++ [x] from if_neg hx]
      obtain ⟨t, h1, h2⟩ := ih (acc ++ [x])
      refine ⟨x :: t, ?_, h2.cons₂ x⟩
      rw [h1, List.append_assoc]
      rfl

/-- C4: the synonyms of the resolver's result come from the first
definition of the first meaning group, deduplicated keeping the first
occurrence of each (stripped) string, order-preserving, and truncated
to at most 5 entries even when the source provides more. -/
theorem synonyms_dedup_take5 :
    ∀ (kvs mkvs dkvs : List (String × Json)) (rest rm rd xs : List Json)
      (info : WordInfo),
      kvs.lookup "meanings" = some (.arr (.obj mkvs :: rm)) →
      mkvs.lookup "definitions" = some (.arr (.obj dkvs :: rd)) →
      dkvs.lookup "synonyms" = some (.arr xs) →
      fetch_word_info_from_api (.ok (.arr (.obj kvs :: rest))) = .ok info →
      info.synonyms = (dedupKeepFirst (pyStrClean xs)).take 5
      ∧ info.synonyms.Nodup
      ∧ info.synonyms.length ≤ 5
      ∧ info.synonyms.Sublist (pyStrClean xs) := by
  intro kvs mkvs dkvs rest rm rd xs info h1 h2 h3 hf
  have hif : (if (Json.arr xs).truthy then Json.arr xs else Json.arr [])
      = Json.arr xs := by
    cases xs <;> rfl
  have hsyn : info.synonyms = (dedupSyns [] xs).take 5 := by
    rw [show fetch_word_info_from_api (.ok (.arr (.obj kvs :: rest)))
        = parseEntry (.obj kvs) from rfl] at hf
    unfold parseEntry at hf
    cases hp : probeIpa (.obj kvs) with
    | error e =>
      rw [hp] at hf
      simp at hf
    | ok ipaVal =>
      rw [hp] at hf
      simp only [Json.get, h1, h2, h3, Option.getD, Json.truthy, List.isEmpty_cons,
        Bool.not_false, if_true, hif] at hf
      rw [← ((Except.ok.injEq _ _).mp hf)]
      cases xs <;> rfl
  rw [dedupSyns_eq xs []] at hsyn
  refine ⟨hsyn, ?_, ?_, ?_⟩
  · rw [hsyn]
    exact List.Nodup.sublist (List.take_sublist 5 _)
      (dedup_foldl_nodup (pyStrClean xs) [] List.nodup_nil)
  · rw [hsyn]
    exact List.length_take_le 5 _
  · rw [hsyn]
    obtain ⟨t, ht1, ht2⟩ := dedup_foldl_split (pyStrClean xs) []
    rw [ht1]
    simpa using (List.take_sublist 5 t).trans ht2

/-! ### IPA extraction -/

theorem dropWhile_idem {α : Type} (p : α → Bool) (l : List α) :
    (l.dropWhile p).dropWhile p = l.dropWhile p := by
  induction l with
  | nil => rfl
  | cons c rest ih =>
    by_cases h : p c = true
    · simp [List.dropWhile_cons, h, ih]
    · simp [List.dropWhile_cons, h]

theorem stripList_dropWhile (l : List Char) :
    (stripList l).dropWhile Char.isWhitespace = stripList l := by
  cases hRc : stripList l with
  | nil => rfl
  | cons a t =>
    have hpre : stripList l <+: l.dropWhile Char.isWhitespace := by
      have h0 := (List.dropWhile_suffix
        (l := (l.dropWhile Char.isWhitespace).reverse) Char.isWhitespace).reverse
      rw [List.reverse_reverse] at h0
      exact h0
    rw [hRc] at hpre
    obtain ⟨u, hu⟩ := hpre
    have hd1h : (l.dropWhile Char.isWhitespace).head? = some a := by
      rw [← hu]
      rfl
    have hwa : Char.isWhitespace a = false := by
      have hh := List.head?_dropWhile_not Char.isWhitespace l
      rw [hd1h] at hh
      exact hh
    rw [List.dropWhile_cons, hwa]
    rfl

theorem stripList_rev_dropWhile (l : List Char) :
    (stripList l).reverse.dropWhile Char.isWhitespace = (stripList l).reverse := by
  unfold stripList
  rw [List.reverse_reverse]
  exact dropWhile_idem _ _

theorem stripList_idem (l : List Char) : stripList (stripList l) = stripList l :=
  calc stripList (stripList l)
      = (((stripList l).dropWhile Char.isWhitespace).reverse.dropWhile
          Char.isWhitespace).reverse := rfl
    _ = ((stripList l).reverse.dropWhile Char.isWhitespace).reverse := by
        rw [stripList_dropWhile]
    _ = ((stripList l).reverse).reverse := by rw [stripList_rev_dropWhile]
    _ = stripList l := List.reverse_reverse _

theorem pyStrip_idem (s : String) : pyStrip (pyStrip s) = pyStrip s :=
  congrArg String.mk (stripList_idem s.data)

/-- Modelled from the spec: the first element of the phonetics list with
a non-blank text field, stripped (spec: "scan the phonetics list for the
first entry with a non-empty text field"). -/
def firstPhoneticText : List Json → Option String
  | [] => none
  | .obj pkvs :: rest =>
    match pkvs.lookup "text" with
    | some (.str s) =>
      if pyStrip s == "" then firstPhoneticText rest else some (pyStrip s)
    | _ => firstPhoneticText rest
  | _ :: rest => firstPhoneticText rest

theorem findIpaText_ok (ps : List Json) :
    ∀ r, findIpaText ps = .ok r → firstPhoneticText ps = r := by
  induction ps with
  | nil =>
    intro r h
    injection h
  | cons p rest ih =>
    intro r h
    cases p with
    | obj pkvs =>
      unfold findIpaText at h
      unfold firstPhoneticText
      simp only [Json.get] at h
      cases hlk : pkvs.lookup "text" with
      | none =>
        rw [hlk] at h
        exact ih r h
      | some v =>
        rw [hlk] at h
        cases v with
        | str s =>
          have h2 : (if (pyStrip s == "") = true then findIpaText rest
              else Except.ok (some (pyStrip s))) = Except.ok r := h
          show (if (pyStrip s == "") = true then firstPhoneticText rest
              else some (pyStrip s)) = r
          by_cases hs : (pyStrip s == "") = true
          · rw [if_pos hs] at h2 ⊢
            exact ih r h2
          · rw [if_neg hs] at h2 ⊢
            injection h2
        | null => exact ih r h
        | bool b => exact ih r h
        | num n => exact ih r h
        | arr l => exact ih r h
        | obj l => exact ih r h
    | null => unfold findIpaText at h; simp [Json.get] at h
    | bool b => unfold findIpaText at h; simp [Json.get] at h
    | num n => unfold findIpaText at h; simp [Json.get] at h
    | str s2 => unfold findIpaText at h; simp [Json.get] at h
    | arr l => unfold findIpaText at h; simp [Json.get] at h

theorem firstPhoneticText_stripped (ps : List Json) :
    ∀ t, firstPhoneticText ps = some t → pyStrip t = t ∧ t ≠ "" := by
  induction ps with
  | nil => intro t h; simp [firstPhoneticText] at h
  | cons p rest ih =>
    intro t h
    cases p with
    | obj pkvs =>
      unfold firstPhoneticText at h
      cases hlk : pkvs.lookup "text" with
      | none =>
        rw [hlk] at h
        exact ih t h
      | some v =>
        rw [hlk] at h
        cases v with
        | str s =>
          have h2 : (if (pyStrip s == "") = true then firstPhoneticText rest
              else some (pyStrip s)) = some t := h
          by_cases hs : (pyStrip s == "") = true
          · rw [if_pos hs] at h2
            exact ih t h2
          · rw [if_neg hs] at h2
            injection h2 with h2
            rw [← h2]
            exact ⟨pyStrip_idem s, by simpa using hs⟩
        | null => exact ih t h
        | bool b => exact ih t h
        | num n => exact ih t h
        | arr l => exact ih t h
        | obj l => exact ih t h
    | null => exact ih t h
    | bool b => exact ih t h
    | num n => exact ih t h
    | str s2 => exact ih t h
    | arr l => exact ih t h

theorem parseEntry_ipa (entry : Json) (info : WordInfo) (v : Json)
    (hp : probeIpa entry = .ok v)
    (hf : parseEntry entry = .ok info) :
    info.ipa = wrapIpa v := by
  unfold parseEntry at hf
  rw [hp] at hf
  repeat' split at hf
  all_goals
    first
    | (injection hf with hf2
       subst hf2
       simp_all)
    | (injection hf)

theorem probeIpa_direct (kvs : List (String × Json)) (s : String)
    (h : kvs.lookup "phonetic" = some (.str s)) (hs : s ≠ "") :
    probeIpa (.obj kvs) = .ok (.str s) := by
  unfold probeIpa
  simp only [Json.get, h, Option.getD]
  rw [if_pos (by simp [Json.truthy, hs])]

theorem probeIpa_fallback (kvs : List (String × Json)) (ps : List Json)
    (h0 : kvs.lookup "phonetic" = none ∨ kvs.lookup "phonetic" = some .null
      ∨ kvs.lookup "phonetic" = some (.str ""))
    (h1 : kvs.lookup "phonetics" = some (.arr ps)) :
    probeIpa (.obj kvs)
      = match findIpaText ps with
        | .error e => .error e
        | .ok (some s) => .ok (.str s)
        | .ok none => .ok ((kvs.lookup "phonetic").getD .null) := by
  unfold probeIpa
  have hif : (if (Json.arr ps).truthy then Json.arr ps else Json.arr [])
      = Json.arr ps := by
    cases ps <;> rfl
  rcases h0 with h0 | h0 | h0 <;>
    simp only [Json.get, h0, h1, Option.getD] <;>
    rw [if_neg (by decide), hif]

theorem wrapIpa_str (s : String) (hne : pyStrip s ≠ "") :
    wrapIpa (.str s)
      = some (if (pyStrip s).data.head? = some slashChar
            ∨ (pyStrip s).data.head? = some lbrackChar
          then pyStrip s else "/" ++ pyStrip s ++ "/") := by
  have h1 : (pyStrip s == "") = false := beq_eq_false_iff_ne.mpr hne
  show (if (pyStrip s == "") = true then none
      else if (pyStrip s).data.head? = some slashChar
          ∨ (pyStrip s).data.head? = some lbrackChar
        then some (pyStrip s) else some ("/" ++ pyStrip s ++ "/"))
    = some (if (pyStrip s).data.head? = some slashChar
          ∨ (pyStrip s).data.head? = some lbrackChar
        then pyStrip s else "/" ++ pyStrip s ++ "/")
  rw [h1]
  by_cases hh : ((pyStrip s).data.head? = some slashChar
      ∨ (pyStrip s).data.head? = some lbrackChar)
  · rw [if_neg (by simp), if_pos hh, if_pos hh]
  · rw [if_neg (by simp), if_neg hh, if_neg hh]

/-- C5: IPA extraction prefers the entry's direct phonetic string; when
that is absent or empty it takes the first element of the phonetics
list whose text strips to a non-blank string; and the extracted string
is wrapped as /…/ exactly when it does not already start with a slash
or an opening bracket. -/
theorem ipa_extraction :
    (∀ (kvs : List (String × Json)) (s : String) (rest : List Json) (info : WordInfo),
      kvs.lookup "phonetic" = some (.str s) →
      pyStrip s ≠ "" →
      fetch_word_info_from_api (.ok (.arr (.obj kvs :: rest))) = .ok info →
      info.ipa = some (if (pyStrip s).data.head? = some slashChar
          ∨ (pyStrip s).data.head? = some lbrackChar
        then pyStrip s else "/" ++ pyStrip s ++ "/"))
    ∧ (∀ (kvs : List (String × Json)) (ps rest : List Json) (t : String)
        (info : WordInfo),
      (kvs.lookup "phonetic" = none ∨ kvs.lookup "phonetic" = some .null
        ∨ kvs.lookup "phonetic" = some (.str "")) →
      kvs.lookup "phonetics" = some (.arr ps) →
      firstPhoneticText ps = some t →
      fetch_word_info_from_api (.ok (.arr (.obj kvs :: rest))) = .ok info →
      info.ipa = some (if t.data.head? = some slashChar
          ∨ t.data.head? = some lbrackChar
        then t else "/" ++ t ++ "/")) := by
  constructor
  · intro kvs s rest info hlk hs hf
    rw [show fetch_word_info_from_api (.ok (.arr (.obj kvs :: rest)))
        = parseEntry (.obj kvs) from rfl] at hf
    have hsne : s ≠ "" := by
      intro h0
      apply hs
      rw [h0]
      rfl
    have hp := probeIpa_direct kvs s hlk hsne
    rw [parseEntry_ipa (.obj kvs) info (.str s) hp hf]
    exact wrapIpa_str s hs
  · intro kvs ps rest t info h0 h1 hft hf
    rw [show fetch_word_info_from_api (.ok (.arr (.obj kvs :: rest)))
        = parseEntry (.obj kvs) from rfl] at hf
    have hpf := probeIpa_fallback kvs ps h0 h1
    cases hfi : findIpaText ps with
    | error e =>
      rw [hfi] at hpf
      have herr : parseEntry (.obj kvs) = .error e := by
        unfold parseEntry
        rw [hpf]
      rw [herr] at hf
      exact absurd hf (by simp)
    | ok r =>
      have hr : firstPhoneticText ps = r := findIpaText_ok ps r hfi
      rw [hft] at hr
      rw [hfi, ← hr] at hpf
      obtain ⟨hstr, htne⟩ := firstPhoneticText_stripped ps t hft
      rw [parseEntry_ipa (.obj kvs) info (.str t) hpf hf]
      have hw := wrapIpa_str t (by rw [hstr]; exact htne)
      rw [hstr] at hw
      exact hw

/-- A raw synonyms array with duplicates, blanks and more than five
usable entries. -/
def c4Syns : List Json :=
  [.str " hi ", .str "hey", .str "hi", .str "  ", .str "yo", .str "sup",
   .str "greetings", .str "salut"]

/-- The first-definition object of the witness entry. -/
def c4D : List (String × Json) :=
  [("definition", .str "a greeting"), ("synonyms", .arr c4Syns)]

/-- The first-meaning object of the witness entry. -/
def c4M : List (String × Json) :=
  [("partOfSpeech", .str "noun"), ("definitions", .arr [.obj c4D])]

/-- The witness dictionary entry. -/
def c4EntryKvs : List (String × Json) :=
  [("phonetic", .str "h"), ("meanings", .arr [.obj c4M])]

/-- The resolver's result on the witness entry. -/
def c4Info : WordInfo :=
  ⟨some "/h/", some "noun", some "a greeting", none,
   ["hi", "hey", "yo", "sup", "greetings"]⟩

/-- Witness for the synonym theorem at a concrete entry with eight raw
synonyms (one duplicate, one blank). -/
theorem synonyms_dedup_take5_witness :
    c4Info.synonyms = (dedupKeepFirst (pyStrClean c4Syns)).take 5
    ∧ c4Info.synonyms.Nodup
    ∧ c4Info.synonyms.length ≤ 5
    ∧ c4Info.synonyms.Sublist (pyStrClean c4Syns) :=
  synonyms_dedup_take5 c4EntryKvs c4M c4D [] [] [] c4Syns c4Info
    rfl rfl rfl rfl

/-- Witness entry for the direct-phonetic case. -/
def c5aKvs : List (String × Json) := [("phonetic", .str " ha ")]

/-- Witness entry for the phonetics-list fallback case. -/
def c5bKvs : List (String × Json) :=
  [("phonetic", .str ""),
   ("phonetics", .arr [.obj [("text", .null)], .obj [("text", .str " abc ")]])]

/-- Witness for the IPA extraction theorem at concrete entries. -/
theorem ipa_extraction_witness :
    ((⟨some "/ha/", none, none, none, []⟩ : WordInfo).ipa
       = some (if (pyStrip " ha ").data.head? = some slashChar
             ∨ (pyStrip " ha ").data.head? = some lbrackChar
           then pyStrip " ha " else "/" ++ pyStrip " ha " ++ "/"))
    ∧ ((⟨some "/abc/", none, none, none, []⟩ : WordInfo).ipa
       = some (if ("abc" : String).data.head? = some slashChar
             ∨ ("abc" : String).data.head? = some lbrackChar
           then "abc" else "/" ++ "abc" ++ "/")) := by
  constructor
  · exact ipa_extraction.1 c5aKvs " ha " [] ⟨some "/ha/", none, none, none, []⟩
      rfl (by decide) rfl
  · exact ipa_extraction.2 c5bKvs
      [.obj [("text", .null)], .obj [("text", .str " abc ")]] [] "abc"
      ⟨some "/abc/", none, none, none, []⟩ (Or.inr (Or.inr rfl)) rfl rfl rfl
